import Mathlib

/-!
Shallow embedding of the conversion-chart derivation pipeline of
src/src/components/ConversionChart/ConversionChart.tsx.

Modelling conventions:
* JavaScript numbers are idealised as exact rationals; the rounding
  performed by parseFloat(rate.toFixed(2)) is modelled as rounding to two
  decimal places, half away from zero, on exact rationals.
* A JavaScript object used as a string-keyed map is modelled as a function
  String to Option, where none stands for both a missing key and null.
* A JavaScript Date value is modelled as a CalDate carrying the ISO date
  string it was parsed from together with its day of week (0 = Sunday,
  1 = Monday, ...), the two observations the code makes of it (getDay and
  toISOString, read in UTC).
-/

/-- One variation of the experiment, as read from the dataset. -/
structure Variation where
  id : Option Int
  name : String
deriving DecidableEq, Repr

/-- A calendar date: the ISO string it prints as and its weekday. -/
structure CalDate where
  iso : String
  dow : Nat
deriving DecidableEq, Repr

/-- One raw day record of the dataset: a date plus per-variation-key visit
and conversion counts. -/
structure DailyRecord where
  date : CalDate
  visits : String → Option Nat
  conversions : String → Option Nat

/-- The per-variation detail stored alongside the plotted value
(entry fields named with suffix details in the source). -/
structure RateDetail where
  visits : Nat
  conversions : Nat
  rate : ℚ
deriving DecidableEq, Repr

/-- One chart entry (a Bucket): the x-axis label, the plotted value per
variation name, and the detail record per variation name. -/
structure Entry where
  date : String
  value : String → Option ℚ
  details : String → Option RateDetail

/-- The string key of a variation: variation.id?.toString() || the string 0,
from the source. -/
def variationKey (v : Variation) : String :=
  match v.id with
  | some n => toString n
  | none => "0"

/-- Rounding to two decimal places, half away from zero: the idealisation
of parseFloat(x.toFixed(2)) on exact rationals. -/
def round2 (q : ℚ) : ℚ :=
  if q < 0 then -((⌊(-q) * 100 + 1/2⌋ : ℚ) / 100) else (⌊q * 100 + 1/2⌋ : ℚ) / 100

/-- The raw (unrounded) daily rate of the source: conversions / visits * 100
when visits is positive, else 0. -/
def rawRate (visits conversions : Nat) : ℚ :=
  if 0 < visits then ((conversions : ℚ) / (visits : ℚ)) * 100 else 0

/-- The plotted daily value the loop body writes for one variation:
null when the visits key is undefined, otherwise the rounded rate. -/
def dailyValue (day : DailyRecord) (v : Variation) : Option ℚ :=
  match day.visits (variationKey v) with
  | none => none
  | some visits =>
      some (round2 (rawRate visits ((day.conversions (variationKey v)).getD 0)))

/-- The detail record the loop body writes for one variation. -/
def dailyDetail (day : DailyRecord) (v : Variation) : Option RateDetail :=
  match day.visits (variationKey v) with
  | none => none
  | some visits =>
      let conversions := (day.conversions (variationKey v)).getD 0
      some ⟨visits, conversions, round2 (rawRate visits conversions)⟩

/-- A forEach loop over the variations writing one slot per variation name,
later writes overwriting earlier ones, starting from the empty object. -/
def buildMap {β : Type} (g : Variation → Option β) (variations : List Variation) :
    String → Option β :=
  variations.foldl (fun f v => fun n => if n = v.name then g v else f n) (fun _ => none)

/-- The daily chart entry built for one day record (the dailyData map of the
source, the two per-name assignments split into the two entry fields). -/
def mkDailyEntry (variations : List Variation) (day : DailyRecord) : Entry :=
  ⟨day.date.iso, buildMap (dailyValue day) variations, buildMap (dailyDetail day) variations⟩

/-- The map initialised to zero counts (empty object read through an
or-zero default). -/
def zeroMap : String → Nat := fun _ => 0

/-- The per-day visit contribution of one variation: the visits entry at
its key, when defined. -/
def dayVisitsOf (day : DailyRecord) (v : Variation) : Option Nat :=
  day.visits (variationKey v)

/-- The per-day conversion contribution of one variation: added only when
the visits entry at its key is defined, with a missing conversions entry
counting as zero. -/
def dayConvsOf (day : DailyRecord) (v : Variation) : Option Nat :=
  (day.visits (variationKey v)).map (fun _ => (day.conversions (variationKey v)).getD 0)

/-- A forEach over the variations adding, for every variation whose
contribution is defined, that contribution onto the slot of its name. -/
def accumSlots (w : Variation → Option Nat) (ws : List Variation) (f : String → Nat) :
    String → Nat :=
  ws.foldl
    (fun f u =>
      match w u with
      | none => f
      | some k => fun n => if n = u.name then f u.name + k else f n)
    f

/-- The accumulated weekly visit counts over a list of days. -/
def sumVisits (variations : List Variation) (ds : List DailyRecord) : String → Nat :=
  ds.foldl (fun f d => accumSlots (dayVisitsOf d) variations f) zeroMap

/-- The accumulated weekly conversion counts over a list of days. -/
def sumConvs (variations : List Variation) (ds : List DailyRecord) : String → Nat :=
  ds.foldl (fun f d => accumSlots (dayConvsOf d) variations f) zeroMap

/-- The plotted weekly value written for one variation when a bucket is
flushed: null when the accumulated visits are zero, else the rounded
sum-then-divide rate. -/
def weekValue (wv wc : String → Nat) (v : Variation) : Option ℚ :=
  if 0 < wv v.name then some (round2 (rawRate (wv v.name) (wc v.name))) else none

/-- The weekly detail record written for one variation when a bucket is
flushed. -/
def weekDetail (wv wc : String → Nat) (v : Variation) : Option RateDetail :=
  if 0 < wv v.name then
    some ⟨wv v.name, wc v.name, round2 (rawRate (wv v.name) (wc v.name))⟩
  else none

/-- The entry pushed when a week bucket is flushed. -/
def mkWeekEntry (variations : List Variation) (start : CalDate) (wv wc : String → Nat) :
    Entry :=
  ⟨"Week of " ++ start.iso, buildMap (weekValue wv wc) variations,
    buildMap (weekDetail wv wc) variations⟩

/-- The aggregation loop over the day records, carrying the pushed entries,
the start date of the open bucket and its accumulated counts; flushes on Monday
or on the first record, and flushes the final open bucket at the end. -/
def weekLoop (variations : List Variation) (acc : List Entry) (cur : Option CalDate)
    (wv wc : String → Nat) : List DailyRecord → List Entry
  | [] =>
    match cur with
    | none => acc
    | some s => acc ++ [mkWeekEntry variations s wv wc]
  | day :: rest =>
    if day.date.dow = 1 ∨ cur = none then
      let acc2 :=
        match cur with
        | none => acc
        | some s => acc ++ [mkWeekEntry variations s wv wc]
      weekLoop variations acc2 (some day.date)
        (accumSlots (dayVisitsOf day) variations zeroMap)
        (accumSlots (dayConvsOf day) variations zeroMap) rest
    else
      weekLoop variations acc cur
        (accumSlots (dayVisitsOf day) variations wv)
        (accumSlots (dayConvsOf day) variations wc) rest

/-- The weekly chart data: the loop run from the empty state. -/
def weeklyData (variations : List Variation) (days : List DailyRecord) : List Entry :=
  weekLoop variations [] none zeroMap zeroMap days

/-- The view mode selector. -/
inductive ViewMode where
  | day : ViewMode
  | week : ViewMode
deriving DecidableEq

/-- The chartData memo: daily entries in day mode, week aggregation in week
mode. -/
def chartData (variations : List Variation) (mode : ViewMode) (days : List DailyRecord) :
    List Entry :=
  match mode with
  | ViewMode.day => days.map (mkDailyEntry variations)
  | ViewMode.week => weeklyData variations days

/-- The groups produced while a bucket with start date s and already
assigned days acc is open. -/
def weekGroupsFrom (s : CalDate) (acc : List DailyRecord) :
    List DailyRecord → List (CalDate × List DailyRecord)
  | [] => [(s, acc)]
  | d :: rest =>
    if d.date.dow = 1 then (s, acc) :: weekGroupsFrom d.date [d] rest
    else weekGroupsFrom s (acc ++ [d]) rest

/-- The week partition of a day sequence. -/
def weekGroups : List DailyRecord → List (CalDate × List DailyRecord)
  | [] => []
  | d :: rest => weekGroupsFrom d.date [d] rest

/-- The entry a flushed bucket produces, expressed from its group. -/
def entryOfGroup (variations : List Variation) (p : CalDate × List DailyRecord) : Entry :=
  mkWeekEntry variations p.1 (sumVisits variations p.2) (sumConvs variations p.2)

/-- The total visits a variation contributes over the days of one group:
the sum, over the days whose visits entry at its key is defined, of that
entry. -/
def groupVisits (v : Variation) (ds : List DailyRecord) : Nat :=
  (ds.map (fun d => (dayVisitsOf d v).getD 0)).sum

/-- The total conversions a variation contributes over the days of one
group: days whose visits entry is undefined contribute nothing, and a
missing conversions entry on a contributing day counts as zero. -/
def groupConvs (v : Variation) (ds : List DailyRecord) : Nat :=
  (ds.map (fun d => (dayConvsOf d v).getD 0)).sum

/-- The filteredData memo: keep an entry when at least one visible
variation name holds a non-null value in it. -/
def filteredData (entries : List Entry) (visible : List String) : List Entry :=
  entries.filter (fun e => visible.any (fun name => (e.value name).isSome))

/-- The zoomedData memo. The zoom level is the input unchanged at 100.
The branch for level 0 mirrors the floating-point evaluation of the source,
where 100 / 0 is positive infinity, the window size becomes unbounded and
the start index clamps to 0, so the whole input is returned; every other
level computes the trailing window from the floor of
totalPoints * (100 / zoomLevel). -/
def zoomedData (zoomLevel : Int) (l : List Entry) : List Entry :=
  if zoomLevel = 100 then l
  else if zoomLevel = 0 then l
  else
    let totalPoints : Int := l.length
    let visiblePoints : Int := max ⌊(totalPoints : ℚ) * (100 / (zoomLevel : ℚ))⌋ 2
    let startIndex : Int := max 0 (totalPoints - visiblePoints)
    l.drop startIndex.toNat

/-- The handleVariationToggle state update: an already-visible name is
removed only while more than one variation is visible; a hidden name is
added. -/
def handleVariationToggle (prev : Finset String) (variationName : String) :
    Finset String :=
  if variationName ∈ prev then
    if 1 < prev.card then prev.erase variationName else prev
  else insert variationName prev

/-- The backward scan of getInterpolatedValue: the greatest index below
the target holding a non-null value, scanning from the target downward. -/
def searchBack (vals : List (Option ℚ)) : Nat → Option Nat
  | 0 => none
  | i + 1 => if (vals.getD i none).isSome then some i else searchBack vals i

/-- The forward scan of getInterpolatedValue, on fuel: the least index at
or above the cursor holding a non-null value, within the list. -/
def searchFwdAux (vals : List (Option ℚ)) : Nat → Nat → Option Nat
  | _, 0 => none
  | i, fuel + 1 => if (vals.getD i none).isSome then some i else searchFwdAux vals (i + 1) fuel

/-- The forward scan of getInterpolatedValue: the least index above the
target holding a non-null value. -/
def searchFwd (vals : List (Option ℚ)) (index : Nat) : Option Nat :=
  searchFwdAux vals (index + 1) vals.length

/-- getInterpolatedValue of the source: linear interpolation between the
nearest non-null neighbours, null when either side has none. -/
def getInterpolatedValue (vals : List (Option ℚ)) (index : Nat) : Option ℚ :=
  match searchBack vals index, searchFwd vals index with
  | some p, some n =>
      let prevValue := (vals.getD p none).getD 0
      let nextValue := (vals.getD n none).getD 0
      some (prevValue + (nextValue - prevValue) * (((index : ℚ) - (p : ℚ)) / ((n : ℚ) - (p : ℚ))))
  | _, _ => none

/-- The per-variation value resolution of the tooltip: the stored value at the
target index when non-null, else the interpolated value. -/
def resolveValue (vals : List (Option ℚ)) (index : Nat) : Option ℚ :=
  match vals.getD index none with
  | some v => some v
  | none => getInterpolatedValue vals index

/-- One resolved tooltip row before ranking: name, palette index and rate. -/
structure TooltipItem where
  name : String
  colorIdx : Nat
  rate : ℚ
deriving DecidableEq, Repr

/-- The palette index the tooltip assigns to a variation name: its position
in the variation list, modulo the four palette colors. -/
def colorIdxOf (variations : List Variation) (name : String) : Nat :=
  (variations.findIdx (fun v => v.name = name)) % 4

/-- The resolution pass of the tooltip over the visible variation names against
the full pre-filter, pre-zoom chart data: a row is emitted only when a
value resolves, and omitted entirely otherwise. -/
def resolveEntries (variations : List Variation) (entries : List Entry)
    (visible : List String) (index : Nat) : List TooltipItem :=
  visible.filterMap (fun name =>
    (resolveValue (entries.map (fun e => e.value name)) index).map
      (fun r => ⟨name, colorIdxOf variations name, r⟩))

/-- The display pipeline assembled as in the source: chart data, then the
visibility filter, then the zoom window. -/
def deriveDisplayWindow (variations : List Variation) (mode : ViewMode)
    (days : List DailyRecord) (visible : List String) (zoom : Int) : List Entry :=
  zoomedData zoom (filteredData (chartData variations mode days) visible)

/-- The tooltip rows resolved, as in the source, against the full
pre-filter, pre-zoom chart data. -/
def customTooltipItems (variations : List Variation) (mode : ViewMode)
    (days : List DailyRecord) (visible : List String) (index : Nat) : List TooltipItem :=
  resolveEntries variations (chartData variations mode days) visible index

/-- The descending-by-rate order the tooltip sorts with. -/
def rateGE (a b : TooltipItem) : Prop := b.rate ≤ a.rate

instance : DecidableRel rateGE := fun a b => inferInstanceAs (Decidable (b.rate ≤ a.rate))

instance : IsTotal TooltipItem rateGE := ⟨fun a b => le_total b.rate a.rate⟩

instance : IsTrans TooltipItem rateGE := ⟨fun _ _ _ h1 h2 => le_trans h2 h1⟩

/-- The sort of the tooltip items, descending by rate. -/
def sortTooltip (items : List TooltipItem) : List TooltipItem :=
  List.insertionSort rateGE items

/-- One rendered tooltip row: the resolved row plus its winner flag. -/
structure RenderedItem where
  name : String
  colorIdx : Nat
  rate : ℚ
  isWinner : Bool
deriving DecidableEq, Repr

/-- The max rate the winner test uses: the first rate after sorting, or 0
when there are no items. -/
def maxRateOf (sorted : List TooltipItem) : ℚ :=
  match sorted with
  | [] => 0
  | x :: _ => x.rate

/-- The tooltip rendering pass: sort descending by rate, then flag as
winner exactly the entries whose rate equals the max rate, when that max
is positive. -/
def renderTooltip (items : List TooltipItem) : List RenderedItem :=
  let sorted := sortTooltip items
  let maxRate := maxRateOf sorted
  sorted.map (fun e => ⟨e.name, e.colorIdx, e.rate, e.rate = maxRate ∧ 0 < maxRate⟩)

/-- A chart entry with no per-variation data, used as an opaque bucket. -/
def entryZ (label : String) : Entry := ⟨label, fun _ => none, fun _ => none⟩

/-- Three opaque buckets. -/
def entriesZ : List Entry := [entryZ "2024-01-01", entryZ "2024-01-02", entryZ "2024-01-03"]

/-- The single variation of the end-to-end dataset (no id, so key 0). -/
def variationA : Variation := ⟨none, "A"⟩

/-- A day record with 10 visits and 1 conversion for the key 0. -/
def mkUniformDay (iso : String) (dw : Nat) : DailyRecord :=
  ⟨⟨iso, dw⟩, fun k => if k = "0" then some 10 else none,
    fun k => if k = "0" then some 1 else none⟩

def day8a : DailyRecord := mkUniformDay "2024-01-03" 3

def day8b : DailyRecord := mkUniformDay "2024-01-04" 4

def day8c : DailyRecord := mkUniformDay "2024-01-05" 5

def day8d : DailyRecord := mkUniformDay "2024-01-06" 6

def day8e : DailyRecord := mkUniformDay "2024-01-07" 0

def day8f : DailyRecord := mkUniformDay "2024-01-08" 1

def day8g : DailyRecord := mkUniformDay "2024-01-09" 2

def day8h : DailyRecord := mkUniformDay "2024-01-10" 3

/-- Eight consecutive days starting on Wednesday 2024-01-03 (2024-01-08 is
the Monday). -/
def days8 : List DailyRecord := [day8a, day8b, day8c, day8d, day8e, day8f, day8g, day8h]

/-- The first week group of the 8-day dataset: Wednesday through Sunday. -/
def group8a : CalDate × List DailyRecord :=
  (⟨"2024-01-03", 3⟩, [day8a, day8b, day8c, day8d, day8e])

/-- The second week group of the 8-day dataset: Monday through the next
Wednesday. -/
def group8b : CalDate × List DailyRecord := (⟨"2024-01-08", 1⟩, [day8f, day8g, day8h])

/-- A day with 8 visits and 2 conversions for the key 0. -/
def dayW : DailyRecord :=
  ⟨⟨"2024-01-03", 3⟩, fun k => if k = "0" then some 8 else none,
    fun k => if k = "0" then some 2 else none⟩

/-- Day A of the sum-then-divide example of the spec: 10 visits, 5 conversions. -/
def dayU : DailyRecord :=
  ⟨⟨"2024-01-03", 3⟩, fun k => if k = "0" then some 10 else none,
    fun k => if k = "0" then some 5 else none⟩

/-- Day B of the sum-then-divide example of the spec: 90 visits, 9 conversions. -/
def dayV : DailyRecord :=
  ⟨⟨"2024-01-04", 4⟩, fun k => if k = "0" then some 90 else none,
    fun k => if k = "0" then some 9 else none⟩

/-- The single bucket both example days fall into. -/
def pW : CalDate × List DailyRecord := (⟨"2024-01-03", 3⟩, [dayU, dayV])

/-- An entry holding a single plotted value for the variation named A. -/
def entryVal (label : String) (q : Option ℚ) : Entry :=
  ⟨label, fun n => if n = "A" then q else none, fun _ => none⟩

/-- Four buckets whose values for A are 10, null, null, 40. -/
def entries4 : List Entry :=
  [entryVal "2024-01-01" (some 10), entryVal "2024-01-02" none,
   entryVal "2024-01-03" none, entryVal "2024-01-04" (some 40)]

/-- The value column the tooltip scans for A. -/
def vals4 : List (Option ℚ) := [some 10, none, none, some 40]

/-- The winner-tie example rows of the spec: A at 50, B at 50, C at 10. -/
def itemsW : List TooltipItem := [⟨"A", 0, 50⟩, ⟨"B", 1, 50⟩, ⟨"C", 2, 10⟩]

/-- All-zero rows. -/
def itemsZero : List TooltipItem := [⟨"A", 0, 0⟩, ⟨"B", 1, 0⟩]

/-! Lemmas and claim theorems. -/

/-- A foldl of slot writes leaves a slot alone when no written variation has
that name. -/
theorem buildMap_foldl_of_not_mem {β : Type} (g : Variation → Option β)
    (variations : List Variation) (f : String → Option β) (n : String)
    (h : ∀ v ∈ variations, v.name ≠ n) :
    variations.foldl (fun f v => fun m => if m = v.name then g v else f m) f n = f n := by
  induction variations generalizing f with
  | nil => rfl
  | cons v vs ih =>
      simp only [List.foldl_cons]
      rw [ih _ (fun w hw => h w (List.mem_cons_of_mem v hw))]
      have hv : v.name ≠ n := h v (List.mem_cons_self v vs)
      simp only [if_neg (fun hn : n = v.name => hv hn.symm)]

/-- A foldl of slot writes reads back, at the name of a listed variation
whose name no other listed variation shares, the value written for it,
independently of the initial map. -/
theorem buildMap_foldl_eq {β : Type} (g : Variation → Option β) (ws : List Variation)
    (f : String → Option β) (hnd : (ws.map (·.name)).Nodup) (v : Variation) (hv : v ∈ ws) :
    ws.foldl (fun f u => fun m => if m = u.name then g u else f m) f v.name = g v := by
  induction ws generalizing f with
  | nil => cases hv
  | cons w ws ih =>
      simp only [List.map_cons, List.nodup_cons] at hnd
      rcases List.mem_cons.mp hv with h | h
      · subst h
        simp only [List.foldl_cons]
        rw [buildMap_foldl_of_not_mem]
        · simp
        · intro u hu hname
          exact hnd.1 (hname ▸ List.mem_map_of_mem (·.name) hu)
      · simp only [List.foldl_cons]
        exact ih _ hnd.2 h

/-- With pairwise-distinct variation names, the built map reads back, at a
the name of a listed variation, exactly the value written for it. -/
theorem buildMap_eq {β : Type} (g : Variation → Option β) (variations : List Variation)
    (hnd : (variations.map (·.name)).Nodup) (v : Variation) (hv : v ∈ variations) :
    buildMap g variations v.name = g v :=
  buildMap_foldl_eq g variations _ hnd v hv

/-- Appending one day to the accumulated days is one accumulation step. -/
theorem sumVisits_append (variations : List Variation) (ds : List DailyRecord)
    (d : DailyRecord) :
    sumVisits variations (ds ++ [d]) =
      accumSlots (dayVisitsOf d) variations (sumVisits variations ds) := by
  unfold sumVisits
  rw [List.foldl_append]
  rfl

/-- Appending one day to the accumulated days is one accumulation step. -/
theorem sumConvs_append (variations : List Variation) (ds : List DailyRecord)
    (d : DailyRecord) :
    sumConvs variations (ds ++ [d]) =
      accumSlots (dayConvsOf d) variations (sumConvs variations ds) := by
  unfold sumConvs
  rw [List.foldl_append]
  rfl

/-- The aggregation loop, run with an open bucket whose accumulated counts
come from the days already assigned to it, emits exactly one entry per
group of the remaining partition, in order, after the entries already
pushed. -/
theorem weekLoop_eq_groups (variations : List Variation) :
    ∀ (days : List DailyRecord) (acc : List Entry) (s : CalDate) (done : List DailyRecord),
      weekLoop variations acc (some s) (sumVisits variations done)
          (sumConvs variations done) days
        = acc ++ (weekGroupsFrom s done days).map (entryOfGroup variations) := by
  intro days
  induction days with
  | nil =>
      intro acc s done
      simp [weekLoop, weekGroupsFrom, entryOfGroup]
  | cons day rest ih =>
      intro acc s done
      by_cases hmon : day.date.dow = 1
      · have hcond : day.date.dow = 1 ∨ (some s : Option CalDate) = none := Or.inl hmon
        simp only [weekLoop, if_pos hcond, weekGroupsFrom, if_pos hmon]
        have h1 : accumSlots (dayVisitsOf day) variations zeroMap =
            sumVisits variations [day] := rfl
        have h2 : accumSlots (dayConvsOf day) variations zeroMap =
            sumConvs variations [day] := rfl
        rw [h1, h2, ih (acc ++ [mkWeekEntry variations s (sumVisits variations done)
          (sumConvs variations done)]) day.date [day]]
        simp [entryOfGroup, List.append_assoc]
      · have hcond : ¬ (day.date.dow = 1 ∨ (some s : Option CalDate) = none) := by
          simp [hmon]
        simp only [weekLoop, if_neg hcond, weekGroupsFrom, if_neg hmon]
        rw [← sumVisits_append, ← sumConvs_append, ih acc s (done ++ [day])]

/-- The weekly chart data is exactly the per-group entries of the week
partition. -/
theorem weeklyData_eq_groups (variations : List Variation) (days : List DailyRecord) :
    weeklyData variations days = (weekGroups days).map (entryOfGroup variations) := by
  cases days with
  | nil => rfl
  | cons d rest =>
      unfold weeklyData weekGroups
      have hcond : d.date.dow = 1 ∨ (none : Option CalDate) = none := Or.inr rfl
      simp only [weekLoop, if_pos hcond]
      have h1 : accumSlots (dayVisitsOf d) variations zeroMap =
          sumVisits variations [d] := rfl
      have h2 : accumSlots (dayConvsOf d) variations zeroMap =
          sumConvs variations [d] := rfl
      rw [h1, h2, weekLoop_eq_groups variations rest [] d.date [d]]
      simp

/-- The groups of the partition concatenate back to the accumulated days
followed by the remaining days: the partition loses and reorders nothing. -/
theorem weekGroupsFrom_join (l : List DailyRecord) :
    ∀ (s : CalDate) (acc : List DailyRecord),
      ((weekGroupsFrom s acc l).map (·.2)).flatten = acc ++ l := by
  induction l with
  | nil => intro s acc; simp [weekGroupsFrom]
  | cons d rest ih =>
      intro s acc
      by_cases hmon : d.date.dow = 1
      · simp [weekGroupsFrom, if_pos hmon, ih]
      · simp [weekGroupsFrom, if_neg hmon, ih]

/-- The first group of the running partition keeps the start date of the
open bucket. -/
theorem weekGroupsFrom_head (l : List DailyRecord) :
    ∀ (s : CalDate) (acc : List DailyRecord),
      ∃ g t, weekGroupsFrom s acc l = (s, g) :: t := by
  induction l with
  | nil => intro s acc; exact ⟨acc, [], rfl⟩
  | cons d rest ih =>
      intro s acc
      by_cases hmon : d.date.dow = 1
      · exact ⟨acc, weekGroupsFrom d.date [d] rest, by simp [weekGroupsFrom, if_pos hmon]⟩
      · obtain ⟨g, t, h⟩ := ih s (acc ++ [d])
        exact ⟨g, t, by simp [weekGroupsFrom, if_neg hmon, h]⟩

/-- Every group of the running partition is nonempty, starts with the day
its start date comes from, and contains no Monday after its first day,
provided the open bucket already satisfies this. -/
theorem weekGroupsFrom_shape (l : List DailyRecord) :
    ∀ (a : DailyRecord) (as : List DailyRecord),
      (∀ e ∈ as, e.date.dow ≠ 1) →
      ∀ p ∈ weekGroupsFrom a.date (a :: as) l,
        ∃ h t, p.2 = h :: t ∧ p.1 = h.date ∧ ∀ e ∈ t, e.date.dow ≠ 1 := by
  induction l with
  | nil =>
      intro a as ha p hp
      simp only [weekGroupsFrom, List.mem_singleton] at hp
      subst hp
      exact ⟨a, as, rfl, rfl, ha⟩
  | cons d rest ih =>
      intro a as ha p hp
      by_cases hmon : d.date.dow = 1
      · simp only [weekGroupsFrom, if_pos hmon, List.mem_cons] at hp
        rcases hp with hp | hp
        · subst hp
          exact ⟨a, as, rfl, rfl, ha⟩
        · exact ih d [] (by simp) p hp
      · simp only [weekGroupsFrom, if_neg hmon] at hp
        have hcons : (a :: as) ++ [d] = a :: (as ++ [d]) := by simp
        rw [hcons] at hp
        refine ih a (as ++ [d]) ?_ p hp
        intro e he
        rcases List.mem_append.mp he with h | h
        · exact ha e h
        · simp only [List.mem_singleton] at h
          subst h
          exact hmon

/-- When the open bucket was itself opened on a Monday, every group of the
running partition starts on a Monday. -/
theorem weekGroupsFrom_all_monday (l : List DailyRecord) :
    ∀ (a : DailyRecord) (as : List DailyRecord),
      a.date.dow = 1 →
      ∀ p ∈ weekGroupsFrom a.date (a :: as) l,
        ∃ h t, p.2 = h :: t ∧ h.date.dow = 1 ∧ p.1 = h.date := by
  induction l with
  | nil =>
      intro a as hmon p hp
      simp only [weekGroupsFrom, List.mem_singleton] at hp
      subst hp
      exact ⟨a, as, rfl, hmon, rfl⟩
  | cons d rest ih =>
      intro a as hmon p hp
      by_cases hd : d.date.dow = 1
      · simp only [weekGroupsFrom, if_pos hd, List.mem_cons] at hp
        rcases hp with hp | hp
        · subst hp
          exact ⟨a, as, rfl, hmon, rfl⟩
        · exact ih d [] hd p hp
      · simp only [weekGroupsFrom, if_neg hd] at hp
        have hcons : (a :: as) ++ [d] = a :: (as ++ [d]) := by simp
        rw [hcons] at hp
        exact ih a (as ++ [d]) hmon p hp

/-- Every group after the first starts on a Monday. -/
theorem weekGroupsFrom_tail_monday (l : List DailyRecord) :
    ∀ (s : CalDate) (acc : List DailyRecord),
      ∀ p ∈ (weekGroupsFrom s acc l).tail,
        ∃ h t, p.2 = h :: t ∧ h.date.dow = 1 ∧ p.1 = h.date := by
  induction l with
  | nil => intro s acc p hp; simp [weekGroupsFrom] at hp
  | cons d rest ih =>
      intro s acc p hp
      by_cases hd : d.date.dow = 1
      · simp only [weekGroupsFrom, if_pos hd, List.tail_cons] at hp
        exact weekGroupsFrom_all_monday rest d [] hd p hp
      · simp only [weekGroupsFrom, if_neg hd] at hp
        exact ih s (acc ++ [d]) p hp

/-- An accumulation pass leaves a slot alone when no listed variation has
that name. -/
theorem accumSlots_of_not_mem (w : Variation → Option Nat) (ws : List Variation)
    (f : String → Nat) (n : String) (h : ∀ u ∈ ws, u.name ≠ n) :
    accumSlots w ws f n = f n := by
  induction ws generalizing f with
  | nil => rfl
  | cons u us ih =>
      have hu : u.name ≠ n := h u (List.mem_cons_self u us)
      have htail : ∀ x ∈ us, x.name ≠ n := fun x hx => h x (List.mem_cons_of_mem u hx)
      unfold accumSlots
      simp only [List.foldl_cons]
      cases hw : w u with
      | none => exact ih f htail
      | some k =>
          rw [show (us.foldl
            (fun f u =>
              match w u with
              | none => f
              | some k => fun n => if n = u.name then f u.name + k else f n)
            (fun m => if m = u.name then f u.name + k else f m)) n =
              (fun m => if m = u.name then f u.name + k else f m) n from ih _ htail]
          simp only [if_neg (fun hn : n = u.name => hu hn.symm)]

/-- With pairwise-distinct names, an accumulation pass adds, onto the slot
of a listed variation, exactly the contribution of that variation. -/
theorem accumSlots_eq (w : Variation → Option Nat) (ws : List Variation)
    (hnd : (ws.map (·.name)).Nodup) (v : Variation) (hv : v ∈ ws) (f : String → Nat) :
    accumSlots w ws f v.name = f v.name + (w v).getD 0 := by
  induction ws generalizing f with
  | nil => cases hv
  | cons u us ih =>
      simp only [List.map_cons, List.nodup_cons] at hnd
      rcases List.mem_cons.mp hv with h | h
      · subst h
        unfold accumSlots
        simp only [List.foldl_cons]
        have hother : ∀ x ∈ us, x.name ≠ v.name := by
          intro x hx hname
          exact hnd.1 (hname ▸ List.mem_map_of_mem (·.name) hx)
        cases hw : w v with
        | none =>
            rw [show (us.foldl
              (fun f u =>
                match w u with
                | none => f
                | some k => fun n => if n = u.name then f u.name + k else f n) f) v.name =
                f v.name from accumSlots_of_not_mem w us f v.name hother]
            simp
        | some k =>
            rw [show (us.foldl
              (fun f u =>
                match w u with
                | none => f
                | some k => fun n => if n = u.name then f u.name + k else f n)
              (fun m => if m = v.name then f v.name + k else f m)) v.name =
                (fun m => if m = v.name then f v.name + k else f m) v.name from
                accumSlots_of_not_mem w us _ v.name hother]
            simp
      · unfold accumSlots
        simp only [List.foldl_cons]
        have hne : u.name ≠ v.name := by
          intro hname
          exact hnd.1 (hname ▸ List.mem_map_of_mem (·.name) h)
        cases hw : w u with
        | none => exact ih hnd.2 h f
        | some k =>
            rw [show ∀ f2, (us.foldl
              (fun f u =>
                match w u with
                | none => f
                | some k => fun n => if n = u.name then f u.name + k else f n) f2) v.name =
                f2 v.name + (w v).getD 0 from fun f2 => ih hnd.2 h f2]
            simp only [if_neg (fun hn : v.name = u.name => hne hn.symm)]

/-- The accumulated visit count at the name of a variation is the sum of
its per-day contributions. -/
theorem sumVisits_name (variations : List Variation)
    (hnd : (variations.map (·.name)).Nodup) (v : Variation) (hv : v ∈ variations)
    (ds : List DailyRecord) :
    sumVisits variations ds v.name = groupVisits v ds := by
  have key : ∀ (ds : List DailyRecord) (f : String → Nat),
      (ds.foldl (fun f d => accumSlots (dayVisitsOf d) variations f) f) v.name =
        f v.name + groupVisits v ds := by
    intro ds
    induction ds with
    | nil => intro f; simp [groupVisits]
    | cons d ds ih =>
        intro f
        simp only [List.foldl_cons]
        rw [ih, accumSlots_eq (dayVisitsOf d) variations hnd v hv f]
        simp [groupVisits, Nat.add_assoc]
  have := key ds zeroMap
  simpa [sumVisits, zeroMap] using this

/-- The accumulated conversion count at the name of a variation is the
sum of its per-day contributions. -/
theorem sumConvs_name (variations : List Variation)
    (hnd : (variations.map (·.name)).Nodup) (v : Variation) (hv : v ∈ variations)
    (ds : List DailyRecord) :
    sumConvs variations ds v.name = groupConvs v ds := by
  have key : ∀ (ds : List DailyRecord) (f : String → Nat),
      (ds.foldl (fun f d => accumSlots (dayConvsOf d) variations f) f) v.name =
        f v.name + groupConvs v ds := by
    intro ds
    induction ds with
    | nil => intro f; simp [groupConvs]
    | cons d ds ih =>
        intro f
        simp only [List.foldl_cons]
        rw [ih, accumSlots_eq (dayConvsOf d) variations hnd v hv f]
        simp [groupConvs, Nat.add_assoc]
  have := key ds zeroMap
  simpa [sumConvs, zeroMap] using this

/-- A successful backward scan returns the nearest prior non-null index:
it is below the target, holds a value, and everything strictly between it
and the target is null. -/
theorem searchBack_eq_some (vals : List (Option ℚ)) :
    ∀ (index p : Nat), searchBack vals index = some p →
      p < index ∧ (vals.getD p none).isSome ∧
        ∀ k, p < k → k < index → vals.getD k none = none := by
  intro index
  induction index with
  | zero => intro p h; cases h
  | succ i ih =>
      intro p h
      by_cases hc : (vals.getD i none).isSome
      · simp only [searchBack, if_pos hc] at h
        cases h
        exact ⟨Nat.lt_succ_self i, hc, fun k hk1 hk2 => absurd hk2 (Nat.not_lt.mpr hk1)⟩
      · simp only [searchBack, if_neg hc] at h
        obtain ⟨hpi, hsome, hmid⟩ := ih p h
        refine ⟨Nat.lt_succ_of_lt hpi, hsome, ?_⟩
        intro k hk1 hk2
        rcases Nat.lt_succ_iff_lt_or_eq.mp hk2 with hk | hk
        · exact hmid k hk1 hk
        · subst hk
          exact Option.not_isSome_iff_eq_none.mp hc

/-- A failed backward scan means everything below the target is null. -/
theorem searchBack_eq_none (vals : List (Option ℚ)) :
    ∀ (index : Nat), searchBack vals index = none →
      ∀ k, k < index → vals.getD k none = none := by
  intro index
  induction index with
  | zero => intro _ k hk; cases hk
  | succ i ih =>
      intro h k hk
      by_cases hc : (vals.getD i none).isSome
      · simp only [searchBack, if_pos hc] at h
        cases h
      · simp only [searchBack, if_neg hc] at h
        rcases Nat.lt_succ_iff_lt_or_eq.mp hk with hk2 | hk2
        · exact ih h k hk2
        · subst hk2
          exact Option.not_isSome_iff_eq_none.mp hc

/-- A successful forward scan on fuel returns the nearest non-null index at
or after the cursor. -/
theorem searchFwdAux_eq_some (vals : List (Option ℚ)) :
    ∀ (fuel i j : Nat), searchFwdAux vals i fuel = some j →
      i ≤ j ∧ (vals.getD j none).isSome ∧
        ∀ k, i ≤ k → k < j → vals.getD k none = none := by
  intro fuel
  induction fuel with
  | zero => intro i j h; cases h
  | succ fuel ih =>
      intro i j h
      by_cases hc : (vals.getD i none).isSome
      · simp only [searchFwdAux, if_pos hc] at h
        cases h
        exact ⟨Nat.le_refl i, hc, fun k hk1 hk2 => absurd hk1 (Nat.not_le.mpr hk2)⟩
      · simp only [searchFwdAux, if_neg hc] at h
        obtain ⟨hij, hsome, hmid⟩ := ih (i + 1) j h
        refine ⟨Nat.le_of_succ_le hij, hsome, ?_⟩
        intro k hk1 hk2
        rcases Nat.lt_or_ge k (i + 1) with hk | hk
        · have : k = i := Nat.le_antisymm (Nat.lt_succ_iff.mp hk) hk1
          subst this
          exact Option.not_isSome_iff_eq_none.mp hc
        · exact hmid k hk hk2

/-- A failed forward scan on fuel means everything in the scanned range is
null. -/
theorem searchFwdAux_eq_none (vals : List (Option ℚ)) :
    ∀ (fuel i : Nat), searchFwdAux vals i fuel = none →
      ∀ k, i ≤ k → k < i + fuel → vals.getD k none = none := by
  intro fuel
  induction fuel with
  | zero => intro i _ k hk1 hk2; omega
  | succ fuel ih =>
      intro i h k hk1 hk2
      by_cases hc : (vals.getD i none).isSome
      · simp only [searchFwdAux, if_pos hc] at h
        cases h
      · simp only [searchFwdAux, if_neg hc] at h
        rcases Nat.lt_or_ge k (i + 1) with hk | hk
        · have : k = i := by omega
          subst this
          exact Option.not_isSome_iff_eq_none.mp hc
        · exact ih (i + 1) h k hk (by omega)

/-- A successful forward scan returns the nearest subsequent non-null
index. -/
theorem searchFwd_eq_some (vals : List (Option ℚ)) (index j : Nat)
    (h : searchFwd vals index = some j) :
    index < j ∧ (vals.getD j none).isSome ∧
      ∀ k, index < k → k < j → vals.getD k none = none := by
  obtain ⟨hij, hsome, hmid⟩ := searchFwdAux_eq_some vals vals.length (index + 1) j h
  exact ⟨hij, hsome, fun k hk1 hk2 => hmid k hk1 hk2⟩

/-- A failed forward scan means everything after the target, inside the
list, is null. -/
theorem searchFwd_eq_none (vals : List (Option ℚ)) (index : Nat)
    (h : searchFwd vals index = none) :
    ∀ k, index < k → k < vals.length → vals.getD k none = none := by
  intro k hk1 hk2
  exact searchFwdAux_eq_none vals vals.length (index + 1) h k hk1 (by omega)

/-- A found index always lies inside the list. -/
theorem lt_length_of_getD_isSome (vals : List (Option ℚ)) (j : Nat)
    (h : (vals.getD j none).isSome) : j < vals.length := by
  by_contra hge
  rw [List.getD_eq_default vals none (Nat.le_of_not_lt hge)] at h
  cases h

/-- Rounding fixes zero. -/
theorem round2_zero : round2 0 = 0 := by
  norm_num [round2]

/-- C1: for every day record and every variation (under the data-model
invariant of pairwise-distinct variation names), the daily chart value is
null iff the key of the variation is absent from the visits of the day; a present
key with zero visits gives rate 0; a present positive visits count gives
the rounded (conversions / visits) * 100, a missing conversions entry
counting as 0. -/
theorem c1_daily_rate (variations : List Variation) (day : DailyRecord)
    (hnd : (variations.map (·.name)).Nodup) (v : Variation) (hv : v ∈ variations) :
    ((mkDailyEntry variations day).value v.name = none ↔
        day.visits (variationKey v) = none)
    ∧ (day.visits (variationKey v) = some 0 →
        (mkDailyEntry variations day).value v.name = some 0)
    ∧ (∀ n, day.visits (variationKey v) = some n → 0 < n →
        (mkDailyEntry variations day).value v.name =
            some (round2 (((day.conversions (variationKey v)).getD 0 : ℚ) / (n : ℚ) * 100))
          ∧ (mkDailyEntry variations day).details v.name =
            some ⟨n, (day.conversions (variationKey v)).getD 0,
              round2 (((day.conversions (variationKey v)).getD 0 : ℚ) / (n : ℚ) * 100)⟩)
    ∧ (∀ n, day.visits (variationKey v) = some n → 0 < n →
        day.conversions (variationKey v) = none →
        (mkDailyEntry variations day).value v.name =
          some (round2 ((0 : ℚ) / (n : ℚ) * 100))) := by
  have hval : (mkDailyEntry variations day).value v.name = dailyValue day v :=
    buildMap_eq (dailyValue day) variations hnd v hv
  have hdet : (mkDailyEntry variations day).details v.name = dailyDetail day v :=
    buildMap_eq (dailyDetail day) variations hnd v hv
  refine ⟨?_, ?_, ?_, ?_⟩
  · rw [hval]
    unfold dailyValue
    cases h : day.visits (variationKey v) with
    | none => simp
    | some n => simp
  · intro h0
    rw [hval]
    unfold dailyValue
    rw [h0]
    simp [rawRate, round2_zero]
  · intro n hn hpos
    constructor
    · rw [hval]
      unfold dailyValue
      rw [hn]
      simp [rawRate, if_pos hpos]
    · rw [hdet]
      unfold dailyDetail
      rw [hn]
      simp [rawRate, if_pos hpos]
  · intro n hn hpos hcnone
    rw [hval]
    unfold dailyValue
    rw [hn, hcnone]
    simp [rawRate, if_pos hpos]

/-- C2: for every week bucket of the partition and every variation, the
value and detail of the bucket are computed sum-then-divide over exactly
the days of the bucket with a defined visits entry: positive accumulated visits
give the rounded (sum of conversions) / (sum of visits) * 100, zero
accumulated visits give null; and the weekly chart data is exactly these
per-bucket entries. -/
theorem c2_week_sum_then_divide (variations : List Variation) (days : List DailyRecord)
    (hnd : (variations.map (·.name)).Nodup) (v : Variation) (hv : v ∈ variations)
    (p : CalDate × List DailyRecord) (hp : p ∈ weekGroups days) :
    ((entryOfGroup variations p).value v.name =
        if 0 < groupVisits v p.2 then
          some (round2 ((groupConvs v p.2 : ℚ) / (groupVisits v p.2 : ℚ) * 100))
        else none)
    ∧ ((entryOfGroup variations p).details v.name =
        if 0 < groupVisits v p.2 then
          some ⟨groupVisits v p.2, groupConvs v p.2,
            round2 ((groupConvs v p.2 : ℚ) / (groupVisits v p.2 : ℚ) * 100)⟩
        else none)
    ∧ weeklyData variations days = (weekGroups days).map (entryOfGroup variations) := by
  have hval : (entryOfGroup variations p).value v.name =
      weekValue (sumVisits variations p.2) (sumConvs variations p.2) v :=
    buildMap_eq _ variations hnd v hv
  have hdet : (entryOfGroup variations p).details v.name =
      weekDetail (sumVisits variations p.2) (sumConvs variations p.2) v :=
    buildMap_eq _ variations hnd v hv
  have hs : sumVisits variations p.2 v.name = groupVisits v p.2 :=
    sumVisits_name variations hnd v hv p.2
  have hc : sumConvs variations p.2 v.name = groupConvs v p.2 :=
    sumConvs_name variations hnd v hv p.2
  refine ⟨?_, ?_, weeklyData_eq_groups variations days⟩
  · rw [hval]
    unfold weekValue
    rw [hs, hc]
    by_cases hpos : 0 < groupVisits v p.2
    · rw [if_pos hpos, if_pos hpos]
      unfold rawRate
      rw [if_pos hpos]
    · rw [if_neg hpos, if_neg hpos]
  · rw [hdet]
    unfold weekDetail
    rw [hs, hc]
    by_cases hpos : 0 < groupVisits v p.2
    · rw [if_pos hpos, if_pos hpos]
      unfold rawRate
      rw [if_pos hpos]
    · rw [if_neg hpos, if_neg hpos]

/-- C3: in week mode the day sequence is partitioned into contiguous
buckets; a bucket opens exactly at a Monday or when none is open, so the
first bucket starts at the date of the first record; every bucket after the
first starts on a Monday and no bucket contains a Monday after its first
day; every bucket, the final one included, is emitted, labelled with
Week of followed by the ISO date of the actual first date assigned to
it. -/
theorem c3_week_partition (variations : List Variation) (d : DailyRecord)
    (rest : List DailyRecord) :
    weeklyData variations (d :: rest)
        = (weekGroups (d :: rest)).map (entryOfGroup variations)
    ∧ ((weekGroups (d :: rest)).map (·.2)).flatten = d :: rest
    ∧ (∃ g t, weekGroups (d :: rest) = (d.date, g) :: t)
    ∧ (∀ p ∈ weekGroups (d :: rest),
        ∃ h t, p.2 = h :: t ∧ p.1 = h.date ∧ ∀ e ∈ t, e.date.dow ≠ 1)
    ∧ (∀ p ∈ (weekGroups (d :: rest)).tail,
        ∃ h t, p.2 = h :: t ∧ h.date.dow = 1)
    ∧ (∀ p ∈ weekGroups (d :: rest),
        (entryOfGroup variations p).date = "Week of " ++ p.1.iso)
    ∧ weekGroups (d :: rest) ≠ [] := by
  refine ⟨weeklyData_eq_groups variations (d :: rest), ?_, ?_, ?_, ?_, ?_, ?_⟩
  · exact weekGroupsFrom_join rest d.date [d]
  · exact weekGroupsFrom_head rest d.date [d]
  · intro p hp
    exact weekGroupsFrom_shape rest d [] (by simp) p hp
  · intro p hp
    obtain ⟨h, t, h1, h2, h3⟩ := weekGroupsFrom_tail_monday rest d.date [d] p hp
    exact ⟨h, t, h1, h2⟩
  · intro p _
    rfl
  · obtain ⟨g, t, h⟩ := weekGroupsFrom_head rest d.date [d]
    rw [show weekGroups (d :: rest) = weekGroupsFrom d.date [d] rest from rfl, h]
    simp

/-- C6: the visibility filter keeps a bucket iff at least one visible
variation name holds a non-null value in it, drops entirely every bucket
in which all visible names are null, and preserves the relative order of
the kept buckets. -/
theorem c6_visibility_filter (entries : List Entry) (visible : List String) :
    List.Sublist (filteredData entries visible) entries
    ∧ (∀ e, e ∈ filteredData entries visible ↔
        e ∈ entries ∧ ∃ nm ∈ visible, (e.value nm).isSome)
    ∧ (∀ e ∈ entries, (∀ nm ∈ visible, e.value nm = none) →
        e ∉ filteredData entries visible) := by
  refine ⟨List.filter_sublist entries, ?_, ?_⟩
  · intro e
    unfold filteredData
    rw [List.mem_filter]
    simp [List.any_eq_true]
  · intro e _ hall hmem
    unfold filteredData at hmem
    rw [List.mem_filter] at hmem
    rcases List.any_eq_true.mp hmem.2 with ⟨nm, hnm, hsome⟩
    rw [hall nm hnm] at hsome
    cases hsome

/-- C4: resolving the tooltip for a visible variation whose stored value at
the target index is null scans the full pre-filter, pre-zoom entry
sequence: backward for the nearest prior non-null index, forward for the
nearest subsequent non-null index; when both exist the resolved value is
the linear interpolation prev + (next - prev) * (index - p) / (n - p);
when either is missing the variation is omitted from the tooltip rows
entirely. -/
theorem c4_tooltip_interpolation (variations : List Variation) (entries : List Entry)
    (visible : List String) (name : String) (index : Nat) (vals : List (Option ℚ))
    (hvals : vals = entries.map (fun e => e.value name))
    (hmem : name ∈ visible)
    (hnull : vals.getD index none = none) :
    (∀ p, searchBack vals index = some p →
        p < index ∧ (vals.getD p none).isSome ∧
          ∀ k, p < k → k < index → vals.getD k none = none)
    ∧ (searchBack vals index = none → ∀ k, k < index → vals.getD k none = none)
    ∧ (∀ n, searchFwd vals index = some n →
        index < n ∧ n < vals.length ∧ (vals.getD n none).isSome ∧
          ∀ k, index < k → k < n → vals.getD k none = none)
    ∧ (searchFwd vals index = none →
        ∀ k, index < k → k < vals.length → vals.getD k none = none)
    ∧ (∀ p n prevValue nextValue, searchBack vals index = some p →
        searchFwd vals index = some n →
        vals.getD p none = some prevValue → vals.getD n none = some nextValue →
        resolveValue vals index =
          some (prevValue + (nextValue - prevValue) *
            (((index : ℚ) - (p : ℚ)) / ((n : ℚ) - (p : ℚ)))))
    ∧ ((searchBack vals index = none ∨ searchFwd vals index = none) →
        ∀ it ∈ resolveEntries variations entries visible index, it.name ≠ name)
    ∧ (∀ (mode : ViewMode) (days : List DailyRecord),
        entries = chartData variations mode days →
        resolveEntries variations entries visible index =
          customTooltipItems variations mode days visible index) := by
  refine ⟨fun p hp => searchBack_eq_some vals index p hp,
    searchBack_eq_none vals index, ?_, searchFwd_eq_none vals index, ?_, ?_,
    fun mode days he => by rw [he]; rfl⟩
  · intro n hn
    obtain ⟨h1, h2, h3⟩ := searchFwd_eq_some vals index n hn
    exact ⟨h1, lt_length_of_getD_isSome vals n h2, h2, h3⟩
  · intro p n prevValue nextValue hp hn hpv hnv
    unfold resolveValue
    rw [hnull]
    unfold getInterpolatedValue
    rw [hp, hn]
    rw [List.getD_eq_getElem?_getD] at hpv hnv
    simp [hpv, hnv]
  · intro hnone it hit hname
    have hres : resolveValue vals index = none := by
      unfold resolveValue
      rw [hnull]
      unfold getInterpolatedValue
      rcases hnone with h | h
      · rw [h]
      · rw [h]
        cases searchBack vals index <;> rfl
    unfold resolveEntries at hit
    rcases List.mem_filterMap.mp hit with ⟨nm, hnm, heq⟩
    rcases Option.map_eq_some'.mp heq with ⟨r, hr, hform⟩
    have : it.name = nm := by rw [← hform]
    rw [hname] at this
    rw [← this, ← hvals] at hr
    rw [hres] at hr
    cases hr

/-- Any element of a descending-sorted tooltip list is bounded by its
first rate. -/
theorem le_maxRateOf_of_sorted (l : List TooltipItem)
    (hs : List.Sorted rateGE l) : ∀ e ∈ l, e.rate ≤ maxRateOf l := by
  intro e he
  cases l with
  | nil => cases he
  | cons x t =>
      rcases List.mem_cons.mp he with h | h
      · subst h; exact le_refl _
      · exact List.rel_of_sorted_cons hs e h

/-- C5: the rendered tooltip rows are the resolved rows sorted descending
by rate; the max rate is the first rate after sorting, or 0 with no
entries; a row is flagged winner iff its rate equals that max and the max
is positive, so every row tied at a positive maximum wins and an all-zero
row set has no winner. -/
theorem c5_winner_ranking (items : List TooltipItem) :
    List.Sorted rateGE (sortTooltip items)
    ∧ List.Perm (sortTooltip items) items
    ∧ renderTooltip items = (sortTooltip items).map
        (fun e => ⟨e.name, e.colorIdx, e.rate,
          decide (e.rate = maxRateOf (sortTooltip items) ∧
            0 < maxRateOf (sortTooltip items))⟩)
    ∧ (∀ e ∈ sortTooltip items, e.rate ≤ maxRateOf (sortTooltip items))
    ∧ (∀ r ∈ renderTooltip items,
        r.isWinner = true ↔
          (r.rate = maxRateOf (sortTooltip items) ∧ 0 < maxRateOf (sortTooltip items)))
    ∧ ((∀ it ∈ items, it.rate = 0) → ∀ r ∈ renderTooltip items, r.isWinner = false) := by
  have hsort : List.Sorted rateGE (sortTooltip items) :=
    List.sorted_insertionSort rateGE items
  have hperm : List.Perm (sortTooltip items) items :=
    List.perm_insertionSort rateGE items
  have hbound := le_maxRateOf_of_sorted (sortTooltip items) hsort
  have hwin : ∀ r ∈ renderTooltip items,
      r.isWinner = true ↔
        (r.rate = maxRateOf (sortTooltip items) ∧ 0 < maxRateOf (sortTooltip items)) := by
    intro r hr
    unfold renderTooltip at hr
    rcases List.mem_map.mp hr with ⟨e, he, hform⟩
    rw [← hform]
    simp only [decide_eq_true_eq]
  refine ⟨hsort, hperm, rfl, hbound, hwin, ?_⟩
  · intro hzero r hr
    have hmax : maxRateOf (sortTooltip items) = 0 := by
      cases hlist : sortTooltip items with
      | nil => rfl
      | cons x t =>
          have hx : x ∈ items := hperm.mem_iff.mp (by rw [hlist]; exact List.mem_cons_self x t)
          have : x.rate = 0 := hzero x hx
          simp [maxRateOf, hlist, this]
  -- a winner needs a positive max rate, impossible when it is zero
    rcases Bool.eq_false_or_eq_true r.isWinner with h | h
    · have := (hwin r hr).mp h
      rw [hmax] at this
      exact absurd this.2 (lt_irrefl 0)
    · exact h

/-- C7: the zoom windower returns the input unchanged at zoom level 100;
at every other level at least 1 it returns the trailing window whose size
is max(floor(totalCount * 100 / zoomLevel), 2), sliced from index
max(0, totalCount - windowSize). -/
theorem c7_zoom_window (zoom : Int) (l : List Entry) :
    zoomedData 100 l = l
    ∧ (zoom ≠ 100 → 1 ≤ zoom →
        zoomedData zoom l =
          l.drop (max 0 ((l.length : Int) -
            max ⌊(((l.length : Int) * 100 : Int) : ℚ) / (zoom : ℚ)⌋ 2)).toNat
        ∧ List.IsSuffix (zoomedData zoom l) l
        ∧ (zoomedData zoom l).length =
            min (max ⌊(((l.length : Int) * 100 : Int) : ℚ) / (zoom : ℚ)⌋ 2).toNat
              l.length) := by
  constructor
  · simp [zoomedData]
  · intro h100 h1
    have h0 : zoom ≠ 0 := by omega
    have hfloor : ⌊((l.length : Int) : ℚ) * (100 / (zoom : ℚ))⌋ =
        ⌊(((l.length : Int) * 100 : Int) : ℚ) / (zoom : ℚ)⌋ := by
      congr 1
      push_cast
      ring
    have hdef : zoomedData zoom l =
        l.drop (max 0 ((l.length : Int) -
          max ⌊(((l.length : Int) * 100 : Int) : ℚ) / (zoom : ℚ)⌋ 2)).toNat := by
      simp only [zoomedData, if_neg h100, if_neg h0]
      rw [hfloor]
    refine ⟨hdef, ?_, ?_⟩
    · rw [hdef]
      exact List.drop_suffix _ l
    · rw [hdef, List.length_drop]
      have h2 : 2 ≤ max ⌊(((l.length : Int) * 100 : Int) : ℚ) / (zoom : ℚ)⌋ 2 :=
        le_max_right _ _
      omega

/-- One toggle keeps a nonempty visible set nonempty. -/
theorem handleVariationToggle_nonempty (s : Finset String) (name : String)
    (h : s.Nonempty) : (handleVariationToggle s name).Nonempty := by
  unfold handleVariationToggle
  by_cases hm : name ∈ s
  · rw [if_pos hm]
    by_cases hc : 1 < s.card
    · rw [if_pos hc]
      rw [← Finset.card_pos, Finset.card_erase_of_mem hm]
      omega
    · rw [if_neg hc]
      exact h
  · rw [if_neg hm]
    exact (Finset.insert_nonempty name s)

/-- C9: starting from a nonempty visible set, any sequence of toggles
leaves the set nonempty; toggling the only visible variation is a no-op,
any other toggle of a visible name removes it, and a toggle of a hidden
name adds it. -/
theorem c9_toggle_invariant (init : Finset String) (hne : init.Nonempty)
    (toggles : List String) :
    (toggles.foldl handleVariationToggle init).Nonempty
    ∧ (∀ s : Finset String, ∀ name : String,
        (s = {name} → handleVariationToggle s name = s)
        ∧ (name ∈ s → s ≠ {name} → handleVariationToggle s name = s.erase name)
        ∧ (name ∉ s → handleVariationToggle s name = insert name s)) := by
  constructor
  · induction toggles generalizing init with
    | nil => exact hne
    | cons t ts ih =>
        simp only [List.foldl_cons]
        exact ih _ (handleVariationToggle_nonempty init t hne)
  · intro s name
    refine ⟨?_, ?_, ?_⟩
    · intro hs
      subst hs
      unfold handleVariationToggle
      rw [if_pos (Finset.mem_singleton_self name)]
      rw [Finset.card_singleton]
      simp
    · intro hm hne2
      have hc : 1 < s.card := by
        rcases Nat.lt_or_ge 1 s.card with h | h
        · exact h
        · exfalso
          have hpos : 0 < s.card := Finset.card_pos.mpr ⟨name, hm⟩
          have h1 : s.card = 1 := by omega
          rcases Finset.card_eq_one.mp h1 with ⟨a, ha⟩
          rw [ha] at hm
          rw [Finset.mem_singleton] at hm
          subst hm
          exact hne2 ha
      unfold handleVariationToggle
      rw [if_pos hm, if_pos hc]
    · intro hm
      unfold handleVariationToggle
      rw [if_neg hm]

/-- C10 (amended): the zoom windower is total: every level at least 1 and
distinct from 100 yields the trailing window without any division-by-zero
branch; level 0 returns the input unchanged (the floating-point window
size is unbounded) and a negative level silently yields the trailing
window, which clamps to 2 buckets; no zoom level is rejected as an
error. -/
theorem c10_zoom_degenerate (zoom : Int) (l : List Entry) :
    (1 ≤ zoom → zoom ≠ 100 →
      zoomedData zoom l =
        l.drop (max 0 ((l.length : Int) -
          max ⌊((l.length : Int) : ℚ) * (100 / (zoom : ℚ))⌋ 2)).toNat)
    ∧ zoomedData 0 l = l
    ∧ (zoom < 0 →
        zoomedData zoom l =
          l.drop (max 0 ((l.length : Int) -
            max ⌊((l.length : Int) : ℚ) * (100 / (zoom : ℚ))⌋ 2)).toNat)
    ∧ (zoom < 0 → 2 ≤ l.length → (zoomedData zoom l).length = 2) := by
  have hbranch : ∀ z : Int, z ≠ 100 → z ≠ 0 →
      zoomedData z l =
        l.drop (max 0 ((l.length : Int) -
          max ⌊((l.length : Int) : ℚ) * (100 / (z : ℚ))⌋ 2)).toNat := by
    intro z hz100 hz0
    simp only [zoomedData, if_neg hz100, if_neg hz0]
  refine ⟨fun h1 h100 => hbranch zoom h100 (by omega), by simp [zoomedData], ?_, ?_⟩
  · intro hneg
    exact hbranch zoom (by omega) (by omega)
  · intro hneg hlen
    rw [hbranch zoom (by omega) (by omega)]
    have hratio : (100 : ℚ) / (zoom : ℚ) < 0 := by
      apply div_neg_of_pos_of_neg
      · norm_num
      · exact_mod_cast hneg
    have hprod : ((l.length : Int) : ℚ) * (100 / (zoom : ℚ)) ≤ 0 := by
      apply mul_nonpos_of_nonneg_of_nonpos
      · positivity
      · exact le_of_lt hratio
    have hfloor : ⌊((l.length : Int) : ℚ) * (100 / (zoom : ℚ))⌋ ≤ 0 :=
      Int.floor_nonpos hprod
    have hmax : max ⌊((l.length : Int) : ℚ) * (100 / (zoom : ℚ))⌋ 2 = 2 :=
      max_eq_right (by omega)
    rw [hmax, List.length_drop]
    omega

/-- C10 counterexample: at zoom level -50 (a level at most 0) the windower
does not reject and does not leave the data unchanged: it silently
returns the trailing 2 buckets; and at level 0 it silently returns the
input unchanged. -/
theorem c10_counterexample :
    zoomedData (-50) entriesZ = [entryZ "2024-01-02", entryZ "2024-01-03"]
    ∧ zoomedData (-50) entriesZ ≠ entriesZ
    ∧ zoomedData 0 entriesZ = entriesZ := by
  have hdrop : zoomedData (-50) entriesZ = entriesZ.drop 1 := by
    norm_num [zoomedData, entriesZ]
  refine ⟨by rw [hdrop]; rfl, ?_, by simp [zoomedData]⟩
  rw [hdrop]
  intro h
  have := congrArg List.length h
  simp [entriesZ] at this

/-- The 8-day dataset partitions into exactly these two groups. -/
theorem weekGroups_days8 : weekGroups days8 = [group8a, group8b] := rfl

/-- The weekly chart data of the 8-day dataset is the two group entries. -/
theorem weeklyData_days8 :
    weeklyData [variationA] days8 =
      [entryOfGroup [variationA] group8a, entryOfGroup [variationA] group8b] := by
  rw [weeklyData_eq_groups, weekGroups_days8]
  rfl

/-- The first bucket of the 8-day dataset aggregates 50 visits and 5
conversions at rate 10.00. -/
theorem entry8a_details :
    (entryOfGroup [variationA] group8a).details "A" = some ⟨50, 5, 10⟩ := by
  have h : buildMap (weekDetail (sumVisits [variationA] group8a.2)
      (sumConvs [variationA] group8a.2)) [variationA] variationA.name =
      weekDetail (sumVisits [variationA] group8a.2) (sumConvs [variationA] group8a.2)
        variationA :=
    buildMap_eq _ [variationA] (by decide) variationA (by decide)
  have h0 : (entryOfGroup [variationA] group8a).details "A" =
      buildMap (weekDetail (sumVisits [variationA] group8a.2)
        (sumConvs [variationA] group8a.2)) [variationA] variationA.name := rfl
  have h2 : weekDetail (sumVisits [variationA] group8a.2) (sumConvs [variationA] group8a.2)
      variationA = some ⟨50, 5, round2 (rawRate 50 5)⟩ := rfl
  rw [h0, h, h2]
  norm_num [rawRate, round2]

/-- The second bucket of the 8-day dataset aggregates 30 visits and 3
conversions at rate 10.00. -/
theorem entry8b_details :
    (entryOfGroup [variationA] group8b).details "A" = some ⟨30, 3, 10⟩ := by
  have h : buildMap (weekDetail (sumVisits [variationA] group8b.2)
      (sumConvs [variationA] group8b.2)) [variationA] variationA.name =
      weekDetail (sumVisits [variationA] group8b.2) (sumConvs [variationA] group8b.2)
        variationA :=
    buildMap_eq _ [variationA] (by decide) variationA (by decide)
  have h0 : (entryOfGroup [variationA] group8b).details "A" =
      buildMap (weekDetail (sumVisits [variationA] group8b.2)
        (sumConvs [variationA] group8b.2)) [variationA] variationA.name := rfl
  have h2 : weekDetail (sumVisits [variationA] group8b.2) (sumConvs [variationA] group8b.2)
      variationA = some ⟨30, 3, round2 (rawRate 30 3)⟩ := rfl
  rw [h0, h, h2]
  norm_num [rawRate, round2]

/-- The plotted value of the first bucket is 10.00. -/
theorem entry8a_value :
    (entryOfGroup [variationA] group8a).value "A" = some 10 := by
  have h : buildMap (weekValue (sumVisits [variationA] group8a.2)
      (sumConvs [variationA] group8a.2)) [variationA] variationA.name =
      weekValue (sumVisits [variationA] group8a.2) (sumConvs [variationA] group8a.2)
        variationA :=
    buildMap_eq _ [variationA] (by decide) variationA (by decide)
  have h0 : (entryOfGroup [variationA] group8a).value "A" =
      buildMap (weekValue (sumVisits [variationA] group8a.2)
        (sumConvs [variationA] group8a.2)) [variationA] variationA.name := rfl
  have h2 : weekValue (sumVisits [variationA] group8a.2) (sumConvs [variationA] group8a.2)
      variationA = some (round2 (rawRate 50 5)) := rfl
  rw [h0, h, h2]
  norm_num [rawRate, round2]

/-- The plotted value of the second bucket is 10.00. -/
theorem entry8b_value :
    (entryOfGroup [variationA] group8b).value "A" = some 10 := by
  have h : buildMap (weekValue (sumVisits [variationA] group8b.2)
      (sumConvs [variationA] group8b.2)) [variationA] variationA.name =
      weekValue (sumVisits [variationA] group8b.2) (sumConvs [variationA] group8b.2)
        variationA :=
    buildMap_eq _ [variationA] (by decide) variationA (by decide)
  have h0 : (entryOfGroup [variationA] group8b).value "A" =
      buildMap (weekValue (sumVisits [variationA] group8b.2)
        (sumConvs [variationA] group8b.2)) [variationA] variationA.name := rfl
  have h2 : weekValue (sumVisits [variationA] group8b.2) (sumConvs [variationA] group8b.2)
      variationA = some (round2 (rawRate 30 3)) := rfl
  rw [h0, h, h2]
  norm_num [rawRate, round2]

/-- C8 counterexample: with 8 consecutive uniform days starting on a
Wednesday, the second week bucket covers the Monday through the following
Wednesday, 3 days with 30 accumulated visits, not the Monday through
Tuesday, 2 days with 20 visits, that the claim asserts. -/
theorem c8_counterexample :
    (weekGroups days8).map (fun p => p.2.length) = [5, 3]
    ∧ (weekGroups days8).map (fun p => p.2.length) ≠ [5, 2]
    ∧ (weeklyData [variationA] days8).map
        (fun e => (e.details "A").map (fun d => d.visits)) = [some 50, some 30]
    ∧ (weeklyData [variationA] days8).map
        (fun e => (e.details "A").map (fun d => d.visits)) ≠ [some 50, some 20] := by
  have hv : (weeklyData [variationA] days8).map
      (fun e => (e.details "A").map (fun d => d.visits)) = [some 50, some 30] := by
    rw [weeklyData_days8]
    simp only [List.map]
    rw [entry8a_details, entry8b_details]
    rfl
  refine ⟨by decide, by decide, hv, ?_⟩
  rw [hv]
  decide

/-- C8 (amended): the 8-day Wednesday-start uniform dataset produces in
week mode exactly 2 buckets: the first labelled with the leading
Wednesday and covering Wednesday through Sunday, 5 days at rate 10.00;
the second labelled with the Monday and covering Monday through the
following Wednesday, 3 days at rate 10.00. -/
theorem c8_week_mode_end_to_end :
    (weeklyData [variationA] days8).length = 2
    ∧ (weeklyData [variationA] days8).map (fun e => e.date) =
        ["Week of 2024-01-03", "Week of 2024-01-08"]
    ∧ (weeklyData [variationA] days8).map (fun e => e.value "A") = [some 10, some 10]
    ∧ (weeklyData [variationA] days8).map (fun e => e.details "A") =
        [some ⟨50, 5, 10⟩, some ⟨30, 3, 10⟩]
    ∧ (weekGroups days8).map (fun p => (p.1.iso, p.2.map (fun d => d.date.iso))) =
        [("2024-01-03", ["2024-01-03", "2024-01-04", "2024-01-05", "2024-01-06",
          "2024-01-07"]),
         ("2024-01-08", ["2024-01-08", "2024-01-09", "2024-01-10"])] := by
  refine ⟨by rw [weeklyData_days8]; rfl, by rw [weeklyData_days8]; rfl, ?_, ?_, by decide⟩
  · rw [weeklyData_days8]
    simp only [List.map]
    rw [entry8a_value, entry8b_value]
  · rw [weeklyData_days8]
    simp only [List.map]
    rw [entry8a_details, entry8b_details]

/-- C1 witness: on a concrete day with 8 visits and 2 conversions the
daily value resolves through the claim theorem to 25.00. -/
theorem c1_witness :
    ([variationA].map (·.name)).Nodup
    ∧ variationA ∈ [variationA]
    ∧ ((mkDailyEntry [variationA] dayW).value variationA.name = none ↔
        dayW.visits (variationKey variationA) = none)
    ∧ (mkDailyEntry [variationA] dayW).value "A" = some 25 := by
  refine ⟨by decide, by decide,
    (c1_daily_rate [variationA] dayW (by decide) variationA (by decide)).1, ?_⟩
  have h := (c1_daily_rate [variationA] dayW (by decide) variationA (by decide)).2.2.1
    8 rfl (by norm_num)
  have h2 : ((dayW.conversions (variationKey variationA)).getD 0) = 2 := rfl
  rw [show (mkDailyEntry [variationA] dayW).value "A" =
    (mkDailyEntry [variationA] dayW).value variationA.name from rfl, h.1, h2]
  norm_num [round2]

/-- C2 witness: days (10, 5) and (90, 9) in one bucket give the weekly
rate (5+9)/(10+90)*100 = 14.00 through the claim theorem, not the 30 an
average of daily rates would give. -/
theorem c2_witness :
    ([variationA].map (·.name)).Nodup
    ∧ variationA ∈ [variationA]
    ∧ pW ∈ weekGroups [dayU, dayV]
    ∧ groupVisits variationA pW.2 = 100
    ∧ groupConvs variationA pW.2 = 14
    ∧ (entryOfGroup [variationA] pW).value "A" = some 14
    ∧ (14 : ℚ) ≠ 30 := by
  have hmem : pW ∈ weekGroups [dayU, dayV] := by
    rw [show weekGroups [dayU, dayV] = [pW] from rfl]
    exact List.mem_singleton.mpr rfl
  have h := (c2_week_sum_then_divide [variationA] [dayU, dayV] (by decide) variationA
    (by decide) pW hmem).1
  refine ⟨by decide, by decide, hmem, rfl, rfl, ?_, by norm_num⟩
  rw [show (entryOfGroup [variationA] pW).value "A" =
    (entryOfGroup [variationA] pW).value variationA.name from rfl, h,
    show groupVisits variationA pW.2 = 100 from rfl,
    show groupConvs variationA pW.2 = 14 from rfl]
  norm_num [round2]

/-- C3 witness: the claim theorem instantiated on the 8-day dataset, whose
partition starts at the leading Wednesday record and opens its second
bucket at the Monday. -/
theorem c3_witness :
    weeklyData [variationA] days8 = (weekGroups days8).map (entryOfGroup [variationA])
    ∧ (weekGroups days8).map (fun p => p.1.iso) = ["2024-01-03", "2024-01-08"]
    ∧ weekGroups days8 ≠ [] := by
  have h := c3_week_partition [variationA] day8a
    [day8b, day8c, day8d, day8e, day8f, day8g, day8h]
  exact ⟨h.1, by decide, h.2.2.2.2.2.2⟩

/-- C4 witness: over buckets 10, null, null, 40 the claim theorem resolves
index 1 to 20 and index 2 to 30. -/
theorem c4_witness :
    vals4 = entries4.map (fun e => e.value "A")
    ∧ "A" ∈ ["A"]
    ∧ vals4.getD 1 none = none
    ∧ resolveValue vals4 1 = some 20
    ∧ resolveValue vals4 2 = some 30 := by
  have h1 := c4_tooltip_interpolation [variationA] entries4 ["A"] "A" 1 vals4 rfl
    (by decide) rfl
  have h2 := c4_tooltip_interpolation [variationA] entries4 ["A"] "A" 2 vals4 rfl
    (by decide) rfl
  have e1 := h1.2.2.2.2.1 0 3 10 40 rfl rfl rfl rfl
  have e2 := h2.2.2.2.2.1 0 3 10 40 rfl rfl rfl rfl
  refine ⟨rfl, by decide, rfl, ?_, ?_⟩
  · rw [e1]
    norm_num
  · rw [e2]
    norm_num

/-- C5 witness: A and B, tied at the positive maximum 50, are both flagged
winner and C is not; all-zero rows produce no winner. -/
theorem c5_witness :
    renderTooltip itemsW =
      [⟨"A", 0, 50, true⟩, ⟨"B", 1, 50, true⟩, ⟨"C", 2, 10, false⟩]
    ∧ renderTooltip itemsZero = [⟨"A", 0, 0, false⟩, ⟨"B", 1, 0, false⟩]
    ∧ List.Sorted rateGE (sortTooltip itemsW) := by
  refine ⟨?_, ?_, (c5_winner_ranking itemsW).1⟩
  · norm_num [renderTooltip, sortTooltip, List.insertionSort, List.orderedInsert,
      rateGE, maxRateOf, itemsW]
  · norm_num [renderTooltip, sortTooltip, List.insertionSort, List.orderedInsert,
      rateGE, maxRateOf, itemsZero]

/-- C6 witness: with only A visible, the two null buckets are dropped, the
kept buckets stay in order, and the claim theorem certifies the dropped
exclusion of the dropped bucket. -/
theorem c6_witness :
    filteredData entries4 ["A"] =
      [entryVal "2024-01-01" (some 10), entryVal "2024-01-04" (some 40)]
    ∧ entryVal "2024-01-02" none ∉ filteredData entries4 ["A"]
    ∧ List.Sublist (filteredData entries4 ["A"]) entries4 := by
  have hmem : entryVal "2024-01-02" none ∈ entries4 :=
    List.Mem.tail _ (List.Mem.head _)
  refine ⟨rfl, ?_, (c6_visibility_filter entries4 ["A"]).1⟩
  refine (c6_visibility_filter entries4 ["A"]).2.2 _ hmem ?_
  intro nm hnm
  have : nm = "A" := by simpa using hnm
  subst this
  rfl

/-- C7 witness: at zoom level 150 over 3 buckets the claim theorem yields
the trailing window of size max(floor(300/150), 2) = 2. -/
theorem c7_witness :
    ((150 : Int) ≠ 100)
    ∧ (1 ≤ (150 : Int))
    ∧ zoomedData 150 entriesZ =
        entriesZ.drop (max 0 ((entriesZ.length : Int) -
          max ⌊(((entriesZ.length : Int) * 100 : Int) : ℚ) / ((150 : Int) : ℚ)⌋ 2)).toNat
    ∧ zoomedData 150 entriesZ = [entryZ "2024-01-02", entryZ "2024-01-03"] := by
  have h := ((c7_zoom_window 150 entriesZ).2 (by decide) (by decide)).1
  refine ⟨by decide, by decide, h, ?_⟩
  rw [h]
  norm_num [entriesZ]

/-- C9 witness: starting from the singleton set containing A, toggling A
is a no-op and the set stays nonempty over the toggle sequence A, B. -/
theorem c9_witness :
    ({"A"} : Finset String).Nonempty
    ∧ (["A", "B"].foldl handleVariationToggle {"A"}).Nonempty
    ∧ handleVariationToggle {"A"} "A" = {"A"} := by
  have h := c9_toggle_invariant {"A"} (Finset.singleton_nonempty "A") ["A", "B"]
  exact ⟨Finset.singleton_nonempty "A", h.1, (h.2 {"A"} "A").1 rfl⟩

/-- C10 witness: at zoom level -50 over 3 buckets the amended theorem
yields a 2-bucket trailing window, and level 0 returns the input. -/
theorem c10_witness :
    ((-50 : Int) < 0)
    ∧ (2 ≤ entriesZ.length)
    ∧ (zoomedData (-50) entriesZ).length = 2
    ∧ zoomedData 0 entriesZ = entriesZ := by
  have h := c10_zoom_degenerate (-50) entriesZ
  exact ⟨by decide, by decide, h.2.2.2 (by decide) (by decide), h.2.1⟩
